import Mathlib

/-!
Verification of the odds-analysis core of the Guaranteed-Profit-with-API
repository (src/main.py): a shallow embedding over exact rationals of
`Match.get_best_odds` and `ArbitrageCalculator.evaluate`, together with
theorems settling the specified properties.  Python dicts are embedded as
association lists kept in insertion order; numeric work is done in ℚ;
`round(x, n)` is embedded as round-half-to-even on exact rationals;
exceptions (KeyError, ZeroDivisionError) are embedded with `Except`.
-/

set_option autoImplicit false

namespace GPA

/-- One priced result for one bookmaker: outcome name together with the
decimal price (embeds an element of a market `outcomes` array). -/
structure Outcome where
  name : String
  price : ℚ
  deriving DecidableEq, Repr

/-- One market of a bookmaker: an ordered sequence of outcome prices. -/
structure Market where
  outcomes : List Outcome
  deriving DecidableEq, Repr

/-- One bookmaker quote: display title plus ordered markets. -/
structure Bookmaker where
  title : String
  markets : List Market
  deriving DecidableEq, Repr

/-- The snapshot of one event, as stored by `Match.__init__` after all four
required keys have been read successfully. -/
structure Match where
  home_team : String
  away_team : String
  commence_time : String
  bookmakers : List Bookmaker
  deriving DecidableEq, Repr

/-- The best-odds mapping: outcome name ↦ (price, bookmaker name), embedded
as an association list in Python dict insertion order. -/
abbrev BestOdds := List (String × ℚ × String)

/-- Embeds the dict update `best_odds[name] = (price, bookmaker_name)` guarded
by `if name not in best_odds or price > best_odds[name][0]` (src/main.py lines
46-48): the first entry with this key is replaced in place when the new price
is strictly greater; a missing key is appended at the end. -/
def updateBest : BestOdds → String → ℚ → String → BestOdds
  | [], name, price, bookmaker_name => [(name, price, bookmaker_name)]
  | (n, p, b) :: rest, name, price, bookmaker_name =>
    if n = name then
      if p < price then (n, price, bookmaker_name) :: rest else (n, p, b) :: rest
    else (n, p, b) :: updateBest rest name price bookmaker_name

/-- Embeds `Match.get_best_odds` (src/main.py lines 31-49): fold over the
bookmakers in order, skipping any bookmaker with an empty `markets` list
(the `except IndexError: continue`), and fold the first market of each
remaining bookmaker through `updateBest`. -/
def Match.get_best_odds (mt : Match) : BestOdds :=
  mt.bookmakers.foldl
    (fun best_odds bookmaker =>
      match bookmaker.markets with
      | [] => best_odds
      | market :: _ =>
        market.outcomes.foldl
          (fun acc outcome => updateBest acc outcome.name outcome.price bookmaker.title)
          best_odds)
    []

/-- Dict lookup on the association list: value of the first entry carrying the
key. -/
def lookupBO : BestOdds → String → Option (ℚ × String)
  | [], _ => none
  | (n, p, b) :: rest, name => if n = name then some (p, b) else lookupBO rest name

/-- The quotes contributed by one bookmaker: the outcomes of its first market
tagged with its title, or nothing when it has no markets. -/
def bkQuotes (bk : Bookmaker) : BestOdds :=
  match bk.markets with
  | [] => []
  | market :: _ => market.outcomes.map fun o => (o.name, o.price, bk.title)

/-- All quotes of a snapshot in processing order: first markets of all
bookmakers, flattened, in bookmaker order. -/
def quotes (mt : Match) : BestOdds := (mt.bookmakers.map bkQuotes).flatten

/-- Run `updateBest` over an explicit quote list (the flattened form of the
double loop in `get_best_odds`). -/
def runBest (acc : BestOdds) (qs : BestOdds) : BestOdds :=
  qs.foldl (fun a q => updateBest a q.1 q.2.1 q.2.2) acc

/-- One comparison step of the best-price selection, per outcome name: keep
the current record unless the new price is strictly greater. -/
def better (cur : Option (ℚ × String)) (price : ℚ) (bk : String) : Option (ℚ × String) :=
  match cur with
  | none => some (price, bk)
  | some (q, c) => if q < price then some (price, bk) else some (q, c)

/-- The per-name trace of the selection: scan the quote list, applying
`better` at every quote carrying the given name. -/
def bestOf (name : String) : Option (ℚ × String) → BestOdds → Option (ℚ × String)
  | cur, [] => cur
  | cur, (n, p, b) :: rest => bestOf name (if n = name then better cur p b else cur) rest

/-- Round-half-to-even to an integer, the semantics of the Python builtin
`round` on exact values. -/
def rhe (x : ℚ) : ℤ :=
  if x - ⌊x⌋ < 1 / 2 then ⌊x⌋
  else if 1 / 2 < x - ⌊x⌋ then ⌊x⌋ + 1
  else if ⌊x⌋ % 2 = 0 then ⌊x⌋ else ⌊x⌋ + 1

/-- `round(x, n)` of the source, on exact rationals. -/
def roundTo (n : ℕ) (x : ℚ) : ℚ := (rhe (x * 10 ^ n) : ℚ) / 10 ^ n

/-- One element of the `opportunities` list built by `evaluate`
(src/main.py lines 79-85). -/
structure Opportunity where
  outcome : String
  stake : ℚ
  price : ℚ
  bookmaker : String
  deriving DecidableEq, Repr

/-- The `result` dict built by `evaluate` (src/main.py lines 67-72). -/
structure ArbResult where
  total_prob : ℚ
  is_arbitrage : Bool
  opportunities : List Opportunity
  guaranteed_profit : ℚ
  deriving DecidableEq, Repr

/-- The list `probabilities = [1 / price for price, _ in best_odds.values()]`
(src/main.py line 64). -/
def impliedProbs (bo : BestOdds) : List ℚ := bo.map fun e => 1 / e.2.1

/-- `total_prob = sum(probabilities)` (src/main.py line 65). -/
def totalProb (bo : BestOdds) : ℚ := (impliedProbs bo).sum

/-- The unrounded stake list `strokes` (src/main.py line 76). -/
def strokes (ts : ℚ) (bo : BestOdds) : List ℚ :=
  bo.map fun e => 1 / e.2.1 / totalProb bo * ts

/-- The per-outcome returns `stake * price` over the unrounded stakes, in the
zip order of src/main.py line 90. -/
def returnsOf (ts : ℚ) (bo : BestOdds) : List ℚ :=
  ((strokes ts bo).zip bo).map fun pr => pr.1 * pr.2.2.1

/-- `min_return = min(...)` (src/main.py line 90); the Python `min` builtin
is only reached with a nonempty list. -/
def minReturn (ts : ℚ) (bo : BestOdds) : ℚ :=
  match returnsOf ts bo with
  | [] => 0
  | r :: rs => rs.foldl min r

/-- Embeds `ArbitrageCalculator.evaluate` (src/main.py lines 59-93) with the
calculator total stake `ts`: `None` on an empty mapping; otherwise the result
record, whose stake plan and profit are filled in exactly when
`total_prob < 1.0`. -/
def evaluate (ts : ℚ) (bo : BestOdds) : Option ArbResult :=
  if bo = [] then none
  else if totalProb bo < 1 then
    some
      { total_prob := roundTo 4 (totalProb bo)
        is_arbitrage := true
        opportunities :=
          (bo.zip (strokes ts bo)).map fun pr =>
            { outcome := pr.1.1
              stake := roundTo 2 pr.2
              price := pr.1.2.1
              bookmaker := pr.1.2.2 }
        guaranteed_profit := roundTo 2 (minReturn ts bo - ts) }
  else
    some
      { total_prob := roundTo 4 (totalProb bo)
        is_arbitrage := false
        opportunities := []
        guaranteed_profit := 0 }

/-- `evaluate` together with the exception behaviour of the Python source:
`1 / price` raises ZeroDivisionError when some price is exactly 0, and the
stake computation raises ZeroDivisionError when `total_prob` is 0 (which, when
it happens, satisfies the arbitrage test `total_prob < 1.0`).  No other
validation is performed by the source. -/
def evaluateExc (ts : ℚ) (bo : BestOdds) : Except String (Option ArbResult) :=
  if bo = [] then Except.ok none
  else if bo.any (fun e => decide (e.2.1 = 0)) then Except.error "ZeroDivisionError"
  else if totalProb bo = 0 then Except.error "ZeroDivisionError"
  else Except.ok (evaluate ts bo)

/-- A raw event payload as seen by `Match.__init__`: each of the four required
keys may be absent from the decoded dict. -/
structure MatchData where
  home_team : Option String
  away_team : Option String
  commence_time : Option String
  bookmakers : Option (List Bookmaker)
  deriving DecidableEq, Repr

/-- Embeds `Match.__init__` (src/main.py lines 24-29): each key is read in
order and a missing key raises KeyError naming it, so no snapshot is produced
from a deficient payload. -/
def Match.init (d : MatchData) : Except String Match :=
  match d.home_team with
  | none => Except.error "KeyError: home_team"
  | some home_team =>
    match d.away_team with
    | none => Except.error "KeyError: away_team"
    | some away_team =>
      match d.commence_time with
      | none => Except.error "KeyError: commence_time"
      | some commence_time =>
        match d.bookmakers with
        | none => Except.error "KeyError: bookmakers"
        | some bookmakers =>
          Except.ok { home_team := home_team, away_team := away_team,
                      commence_time := commence_time, bookmakers := bookmakers }

/-- Concrete snapshot in which two bookmakers tie at the maximal Home price. -/
def mtTie : Match :=
  { home_team := "H", away_team := "A", commence_time := "t",
    bookmakers :=
      [ { title := "BookA",
          markets := [ { outcomes := [ { name := "Home", price := 2 },
                                       { name := "Away", price := 3 } ] } ] },
        { title := "BookB",
          markets := [ { outcomes := [ { name := "Home", price := 2 },
                                       { name := "Away", price := 4 } ] } ] } ] }

/-- Concrete snapshot whose only bookmaker has no markets. -/
def mtNoMarkets : Match :=
  { home_team := "H", away_team := "A", commence_time := "t",
    bookmakers := [ { title := "BookA", markets := [] } ] }

/-- Concrete one-outcome best-odds mapping with price 2 (implied sum 1/2). -/
def boSingle : BestOdds := [("Home", 2, "BookA")]

/-- The evaluate result on `boSingle` with total stake 100. -/
def rSingle : ArbResult :=
  { total_prob := 1 / 2, is_arbitrage := true,
    opportunities := [ { outcome := "Home", stake := 100, price := 2, bookmaker := "BookA" } ],
    guaranteed_profit := 100 }

/-- Concrete best-odds mapping carrying a negative price. -/
def boNeg : BestOdds := [("Home", -2, "BookA")]

/-- The evaluate result on `boNeg` with total stake 100: computed silently. -/
def rNeg : ArbResult :=
  { total_prob := -(1 / 2), is_arbitrage := true,
    opportunities := [ { outcome := "Home", stake := 100, price := -2, bookmaker := "BookA" } ],
    guaranteed_profit := -300 }

/-- Concrete payload with `home_team` absent. -/
def mdMissing : MatchData :=
  { home_team := none, away_team := some "A", commence_time := some "t",
    bookmakers := some [] }

/-! ### Lemmas about the best-price selector -/

theorem lookupBO_updateBest (acc : BestOdds) (m : String) (p : ℚ) (b : String) (name : String) :
    lookupBO (updateBest acc m p b) name =
      if m = name then better (lookupBO acc name) p b else lookupBO acc name := by
  induction acc with
  | nil =>
    by_cases h : m = name <;> simp [updateBest, lookupBO, better, h]
  | cons hd tl ih =>
    obtain ⟨n, q, c⟩ := hd
    by_cases hnm : n = m
    · subst hnm
      by_cases hq : q < p
      · by_cases hname : n = name
        · subst hname
          simp [updateBest, lookupBO, better, hq]
        · simp [updateBest, lookupBO, hq, hname]
      · by_cases hname : n = name
        · subst hname
          simp [updateBest, lookupBO, better, hq]
        · simp [updateBest, lookupBO, hq, hname]
    · by_cases hname : n = name
      · subst hname
        simp [updateBest, lookupBO, hnm, Ne.symm hnm]
      · simp [updateBest, lookupBO, hnm, hname, ih]

theorem lookupBO_runBest (qs : BestOdds) (acc : BestOdds) (name : String) :
    lookupBO (runBest acc qs) name = bestOf name (lookupBO acc name) qs := by
  induction qs generalizing acc with
  | nil => simp [runBest, bestOf]
  | cons q rest ih =>
    obtain ⟨n, p, b⟩ := q
    show lookupBO (runBest (updateBest acc n p b) rest) name = _
    rw [ih, lookupBO_updateBest]
    simp [bestOf]

theorem inner_foldl_eq (outs : List Outcome) (acc : BestOdds) (t : String) :
    outs.foldl (fun a o => updateBest a o.name o.price t) acc =
      runBest acc (outs.map fun o => (o.name, o.price, t)) := by
  simp [runBest, List.foldl_map]

theorem runBest_append (acc : BestOdds) (l₁ l₂ : BestOdds) :
    runBest acc (l₁ ++ l₂) = runBest (runBest acc l₁) l₂ := by
  simp [runBest, List.foldl_append]

theorem get_best_odds_eq_runBest (mt : Match) :
    mt.get_best_odds = runBest [] (quotes mt) := by
  show mt.bookmakers.foldl _ [] = _
  rw [quotes]
  generalize [] = acc
  induction mt.bookmakers generalizing acc with
  | nil => simp [runBest]
  | cons bk bks ih =>
    rw [List.foldl_cons, List.map_cons, List.flatten_cons, runBest_append, ih]
    congr 1
    rw [bkQuotes]
    match h : bk.markets with
    | [] => simp [runBest]
    | market :: rest => simp [inner_foldl_eq]

theorem better_isSome (cur : Option (ℚ × String)) (p : ℚ) (b : String) :
    (better cur p b).isSome := by
  cases cur with
  | none => simp [better]
  | some x =>
    obtain ⟨q, c⟩ := x
    by_cases h : q < p <;> simp [better, h]

theorem better_eq_some (cur : Option (ℚ × String)) (p : ℚ) (b : String) :
    ∃ bq bc, better cur p b = some (bq, bc) := by
  obtain ⟨x, hb⟩ := Option.isSome_iff_exists.mp (better_isSome cur p b)
  exact ⟨x.1, x.2, by rw [hb]⟩

theorem bestOf_isSome (name : String) (qs : BestOdds) (x : ℚ × String) :
    (bestOf name (some x) qs).isSome := by
  induction qs generalizing x with
  | nil => simp [bestOf]
  | cons hd rest ih =>
    obtain ⟨n, p, b⟩ := hd
    rw [bestOf]
    by_cases h : n = name
    · rw [if_pos h]
      obtain ⟨bq, bc, hb⟩ := better_eq_some (some x) p b
      rw [hb]
      exact ih ⟨bq, bc⟩
    · rw [if_neg h]
      exact ih x

theorem bestOf_isSome_of_mem (name : String) (qs : BestOdds) (cur : Option (ℚ × String))
    (p : ℚ) (b : String) (hmem : (name, p, b) ∈ qs) : (bestOf name cur qs).isSome := by
  induction qs generalizing cur with
  | nil => simp at hmem
  | cons hd rest ih =>
    obtain ⟨n, p', b'⟩ := hd
    rcases List.mem_cons.mp hmem with h | h
    · obtain ⟨hn, -, -⟩ : n = name ∧ p' = p ∧ b' = b := by
        have h' := h.symm
        simp at h'
        exact h'
      rw [bestOf, if_pos hn]
      obtain ⟨bq, bc, hb⟩ := better_eq_some cur p' b'
      rw [hb]
      exact bestOf_isSome name rest ⟨bq, bc⟩
    · rw [bestOf]
      exact ih _ h

theorem better_price_le (cur : Option (ℚ × String)) (p : ℚ) (b : String) (q : ℚ) (c : String)
    (h : better cur p b = some (q, c)) :
    p ≤ q ∧ ∀ q₀ c₀, cur = some (q₀, c₀) → q₀ ≤ q := by
  cases cur with
  | none =>
    simp [better] at h
    refine ⟨le_of_eq h.1, ?_⟩
    intro q₀ c₀ hc
    simp at hc
  | some x =>
    obtain ⟨q₀, c₀⟩ := x
    by_cases hlt : q₀ < p
    · rw [better, if_pos hlt] at h
      obtain ⟨rfl, rfl⟩ : p = q ∧ b = c := by simpa using h
      refine ⟨le_refl _, ?_⟩
      intro a d had
      obtain ⟨rfl, rfl⟩ : q₀ = a ∧ c₀ = d := by simpa using had
      exact le_of_lt hlt
    · rw [better, if_neg hlt] at h
      obtain ⟨rfl, rfl⟩ : q₀ = q ∧ c₀ = c := by simpa using h
      refine ⟨le_of_not_lt hlt, ?_⟩
      intro a d had
      obtain ⟨rfl, rfl⟩ : q₀ = a ∧ c₀ = d := by simpa using had
      exact le_refl _

theorem bestOf_max (name : String) (qs : BestOdds) (cur : Option (ℚ × String))
    (p : ℚ) (b : String) (h : bestOf name cur qs = some (p, b)) :
    (∀ q c, (name, q, c) ∈ qs → q ≤ p) ∧ ∀ q₀ c₀, cur = some (q₀, c₀) → q₀ ≤ p := by
  induction qs generalizing cur with
  | nil =>
    rw [bestOf] at h
    constructor
    · intro q c hmem
      simp at hmem
    · intro q₀ c₀ hc
      rw [h] at hc
      obtain ⟨rfl, rfl⟩ : p = q₀ ∧ b = c₀ := by simpa using hc
      exact le_refl _
  | cons hd rest ih =>
    obtain ⟨n, p', b'⟩ := hd
    rw [bestOf] at h
    by_cases hn : n = name
    · rw [if_pos hn] at h
      subst hn
      obtain ⟨bq, bc, hb⟩ := better_eq_some cur p' b'
      rw [hb] at h
      obtain ⟨hrest, hcur'⟩ := ih _ h
      have hbqp : bq ≤ p := hcur' bq bc rfl
      obtain ⟨hp'le, hcurle⟩ := better_price_le cur p' b' bq bc hb
      constructor
      · intro q c hmem
        rcases List.mem_cons.mp hmem with heq | hmem'
        · obtain ⟨rfl, rfl⟩ : q = p' ∧ c = b' := by simpa using heq
          exact le_trans hp'le hbqp
        · exact hrest q c hmem'
      · intro q₀ c₀ hc
        exact le_trans (hcurle q₀ c₀ hc) hbqp
    · rw [if_neg hn] at h
      obtain ⟨hrest, hcur⟩ := ih _ h
      refine ⟨?_, hcur⟩
      intro q c hmem
      rcases List.mem_cons.mp hmem with heq | hmem'
      · obtain ⟨h1, -, -⟩ : name = n ∧ q = p' ∧ c = b' := by simpa using heq
        exact absurd h1.symm hn
      · exact hrest q c hmem'

theorem bestOf_first (name : String) (qs : BestOdds) (cur : Option (ℚ × String))
    (p : ℚ) (b : String) (h : bestOf name cur qs = some (p, b)) :
    cur = some (p, b) ∨
      ((∀ q₀ c₀, cur = some (q₀, c₀) → q₀ < p) ∧
        qs.find? (fun e => decide (e.1 = name ∧ e.2.1 = p)) = some (name, p, b)) := by
  induction qs generalizing cur with
  | nil =>
    rw [bestOf] at h
    exact Or.inl h
  | cons hd rest ih =>
    obtain ⟨n, p', b'⟩ := hd
    rw [bestOf] at h
    by_cases hn : n = name
    · rw [if_pos hn] at h
      subst hn
      obtain ⟨bq, bc, hb⟩ := better_eq_some cur p' b'
      rw [hb] at h
      rcases ih _ h with heq | ⟨hlt2, hfind⟩
      · -- the final record is exactly what `better` produced at the head quote
        have hbb : better cur p' b' = some (p, b) := hb.trans heq
        cases cur with
        | none =>
          have hpb : p' = p ∧ b' = b := by
            rw [better] at hbb
            simpa using hbb
          refine Or.inr ⟨by simp, ?_⟩
          rw [List.find?_cons_of_pos _ (by simp [hpb.1]), hpb.1, hpb.2]
        | some x =>
          obtain ⟨q₀, c₀⟩ := x
          by_cases hq : q₀ < p'
          · have hpb : p' = p ∧ b' = b := by
              rw [better, if_pos hq] at hbb
              simpa using hbb
            refine Or.inr ⟨?_, ?_⟩
            · intro a d had
              have had' : q₀ = a ∧ c₀ = d := by simpa using had
              rw [← had'.1, ← hpb.1]
              exact hq
            · rw [List.find?_cons_of_pos _ (by simp [hpb.1]), hpb.1, hpb.2]
          · have hpb : q₀ = p ∧ c₀ = b := by
              rw [better, if_neg hq] at hbb
              simpa using hbb
            rw [hpb.1, hpb.2]
            exact Or.inl rfl
      · -- a strictly greater quote occurs later: the head price is below `p`
        have hp'lt : p' < p := by
          obtain ⟨hple, -⟩ := better_price_le cur p' b' bq bc hb
          exact lt_of_le_of_lt hple (hlt2 bq bc rfl)
        refine Or.inr ⟨?_, ?_⟩
        · intro a d had
          rcases cur with - | x
          · simp at had
          · obtain ⟨q₀, c₀⟩ := x
            obtain ⟨rfl, rfl⟩ : q₀ = a ∧ c₀ = d := by simpa using had
            have hq₀bq : q₀ ≤ bq := (better_price_le _ p' b' bq bc hb).2 q₀ c₀ rfl
            exact lt_of_le_of_lt hq₀bq (hlt2 bq bc rfl)
        · rw [List.find?_cons_of_neg _ ?_, hfind]
          simp only [decide_eq_true_eq]
          exact fun hyes => absurd hyes.2 (ne_of_lt hp'lt)
    · rw [if_neg hn] at h
      rcases ih _ h with heq | ⟨hlt, hfind⟩
      · exact Or.inl heq
      · refine Or.inr ⟨hlt, ?_⟩
        rw [List.find?_cons_of_neg _ ?_, hfind]
        simp only [decide_eq_true_eq]
        exact fun hyes => absurd hyes.1 hn

theorem bestOf_mem (name : String) (qs : BestOdds) (p : ℚ) (b : String)
    (h : bestOf name none qs = some (p, b)) : (name, p, b) ∈ qs := by
  rcases bestOf_first name qs none p b h with heq | ⟨-, hfind⟩
  · exact absurd heq (by simp)
  · exact List.mem_of_find?_eq_some hfind

/-! ### Lemmas about rounding and the evaluator -/

theorem rhe_intCast (n : ℤ) : rhe (n : ℚ) = n := by
  unfold rhe
  norm_num

theorem floor_le_rhe (x : ℚ) : ⌊x⌋ ≤ rhe x := by
  unfold rhe
  split_ifs <;> linarith [le_refl ⌊x⌋]

theorem rhe_nonneg (x : ℚ) (h : 0 ≤ x) : 0 ≤ rhe x :=
  le_trans (Int.floor_nonneg.mpr h) (floor_le_rhe x)

theorem roundTo_nonneg (n : ℕ) (x : ℚ) (h : 0 ≤ x) : 0 ≤ roundTo n x := by
  unfold roundTo
  apply div_nonneg
  · exact_mod_cast rhe_nonneg _ (by positivity)
  · positivity

theorem totalProb_pos (bo : BestOdds) (hne : bo ≠ []) (hpos : ∀ e ∈ bo, 0 < e.2.1) :
    0 < totalProb bo := by
  apply List.sum_pos
  · intro x hx
    obtain ⟨e, he, rfl⟩ := List.mem_map.mp hx
    exact one_div_pos.mpr (hpos e he)
  · simp [impliedProbs, hne]

theorem strokes_eq_map (ts : ℚ) (bo : BestOdds) :
    strokes ts bo = (impliedProbs bo).map fun q => q / totalProb bo * ts := by
  simp [strokes, impliedProbs, List.map_map]

theorem strokes_sum (ts : ℚ) (bo : BestOdds) (h : totalProb bo ≠ 0) :
    (strokes ts bo).sum = ts := by
  have htot : (bo.map fun e => (1 : ℚ) / e.2.1).sum = totalProb bo := by
    simp [totalProb, impliedProbs]
  unfold strokes
  simp only [div_eq_mul_inv, one_mul]
  rw [List.sum_map_mul_right, List.sum_map_mul_right]
  have htot' : (bo.map fun e => (e.2.1)⁻¹).sum = totalProb bo := by
    rw [← htot]
    simp [one_div]
  rw [htot', mul_inv_cancel₀ h, one_mul]

theorem returnsOf_eq_map (ts : ℚ) (bo : BestOdds) :
    returnsOf ts bo = bo.map fun e => 1 / e.2.1 / totalProb bo * ts * e.2.1 := by
  unfold returnsOf strokes
  generalize totalProb bo = T
  induction bo with
  | nil => simp
  | cons e rest ih => simpa using ih

theorem returnsOf_const (ts : ℚ) (bo : BestOdds) (h0 : ∀ e ∈ bo, e.2.1 ≠ 0) :
    ∀ x ∈ returnsOf ts bo, x = ts / totalProb bo := by
  rw [returnsOf_eq_map]
  intro x hx
  obtain ⟨e, he, rfl⟩ := List.mem_map.mp hx
  have hp : e.2.1 ≠ 0 := h0 e he
  calc 1 / e.2.1 / totalProb bo * ts * e.2.1
      = (e.2.1)⁻¹ * e.2.1 * ((totalProb bo)⁻¹ * ts) := by ring
    _ = (totalProb bo)⁻¹ * ts := by rw [inv_mul_cancel₀ hp, one_mul]
    _ = ts / totalProb bo := by rw [div_eq_mul_inv, mul_comm]

theorem foldl_min_const (c : ℚ) (rs : List ℚ) (hall : ∀ x ∈ rs, x = c) :
    rs.foldl min c = c := by
  induction rs with
  | nil => rfl
  | cons a rest ih =>
    have ha : a = c := hall a (by simp)
    rw [List.foldl_cons, ha, min_self]
    exact ih fun x hx => hall x (by simp [hx])

theorem returnsOf_ne_nil (ts : ℚ) (bo : BestOdds) (hne : bo ≠ []) :
    returnsOf ts bo ≠ [] := by
  rw [returnsOf_eq_map]
  simpa using hne

theorem minReturn_eq (ts : ℚ) (bo : BestOdds) (hne : bo ≠ []) (h0 : ∀ e ∈ bo, e.2.1 ≠ 0) :
    minReturn ts bo = ts / totalProb bo := by
  unfold minReturn
  have hconst := returnsOf_const ts bo h0
  match h : returnsOf ts bo with
  | [] => exact absurd h (returnsOf_ne_nil ts bo hne)
  | r :: rs =>
    rw [h] at hconst
    have hr : r = ts / totalProb bo := hconst r (by simp)
    rw [hr]
    exact foldl_min_const _ rs fun x hx => hconst x (by simp [hx])

theorem evaluate_eq_none_iff (ts : ℚ) (bo : BestOdds) : evaluate ts bo = none ↔ bo = [] := by
  unfold evaluate
  split_ifs with h1 h2 <;> simp [h1]

theorem evaluate_some_spec (ts : ℚ) (bo : BestOdds) (hne : bo ≠ []) :
    ∃ r, evaluate ts bo = some r ∧ r.total_prob = roundTo 4 (totalProb bo) ∧
      (r.is_arbitrage = true ↔ totalProb bo < 1) := by
  unfold evaluate
  rw [if_neg hne]
  by_cases h : totalProb bo < 1
  · rw [if_pos h]
    exact ⟨_, rfl, rfl, by simpa using h⟩
  · rw [if_neg h]
    exact ⟨_, rfl, rfl, by simpa using h⟩

theorem evaluate_arb_spec (ts : ℚ) (bo : BestOdds) (r : ArbResult)
    (h : evaluate ts bo = some r) (harb : r.is_arbitrage = true) :
    bo ≠ [] ∧ totalProb bo < 1 ∧
      r.total_prob = roundTo 4 (totalProb bo) ∧
      r.guaranteed_profit = roundTo 2 (minReturn ts bo - ts) ∧
      r.opportunities = (bo.zip (strokes ts bo)).map fun pr =>
        { outcome := pr.1.1, stake := roundTo 2 pr.2, price := pr.1.2.1,
          bookmaker := pr.1.2.2 } := by
  unfold evaluate at h
  split_ifs at h with h1 h2
  · injection h with h'
    subst h'
    exact ⟨h1, h2, rfl, rfl, rfl⟩
  · injection h with h'
    subst h'
    simp at harb

theorem roundTo_exact (n : ℕ) (x : ℚ) (m : ℤ) (h : x * 10 ^ n = (m : ℚ)) :
    roundTo n x = x := by
  rw [roundTo, h, rhe_intCast, div_eq_iff (by positivity)]
  exact h.symm

theorem totalProb_boSingle : totalProb boSingle = 1 / 2 := by
  norm_num [totalProb, impliedProbs, boSingle]

theorem evaluate_boSingle : evaluate 100 boSingle = some rSingle := by
  have hst : strokes 100 boSingle = [100] := by
    rw [strokes]
    simp only [totalProb_boSingle]
    norm_num [boSingle]
  have hrt : returnsOf 100 boSingle = [200] := by
    rw [returnsOf, hst]
    norm_num [boSingle]
  have hmr : minReturn 100 boSingle = 200 := by
    unfold minReturn
    rw [hrt]
    rfl
  rw [evaluate, if_neg (by simp [boSingle]), if_pos (by rw [totalProb_boSingle]; norm_num)]
  rw [totalProb_boSingle, hst, hmr]
  rw [roundTo_exact 4 (1 / 2) 5000 (by norm_num),
      roundTo_exact 2 (200 - 100) 10000 (by norm_num)]
  norm_num [boSingle, rSingle, roundTo_exact 2 100 10000 (by norm_num)]

/-! ### The claims -/

/-- C1: for every outcome name appearing in some bookmaker first market, the
best-odds mapping holds a record for it whose price is the maximum price
quoted for that name across all bookmakers' first markets, paired with a
bookmaker that actually quoted that price. -/
theorem C1_best_price_correct (mt : Match) (name : String) (p₀ : ℚ) (b₀ : String)
    (hmem : (name, p₀, b₀) ∈ quotes mt) :
    ∃ p b, lookupBO mt.get_best_odds name = some (p, b) ∧
      (name, p, b) ∈ quotes mt ∧ ∀ q c, (name, q, c) ∈ quotes mt → q ≤ p := by
  have h0 : lookupBO [] name = none := rfl
  have hlk : lookupBO mt.get_best_odds name = bestOf name none (quotes mt) := by
    rw [get_best_odds_eq_runBest, lookupBO_runBest, h0]
  obtain ⟨x, hx⟩ := Option.isSome_iff_exists.mp
    (bestOf_isSome_of_mem name (quotes mt) none p₀ b₀ hmem)
  obtain ⟨p, b⟩ := x
  refine ⟨p, b, by rw [hlk, hx], bestOf_mem name (quotes mt) p b hx, ?_⟩
  exact (bestOf_max name (quotes mt) none p b hx).1

/-- C1 witness: in the concrete tie snapshot the Home outcome is mapped to a
maximal quoted price attained by an actual quote. -/
theorem C1_best_price_correct_witness :
    ∃ p b, lookupBO mtTie.get_best_odds "Home" = some (p, b) ∧
      ("Home", p, b) ∈ quotes mtTie ∧ ∀ q c, ("Home", q, c) ∈ quotes mtTie → q ≤ p :=
  C1_best_price_correct mtTie "Home" 2 "BookA" (by simp [quotes, bkQuotes, mtTie])

/-- C6: when the record for an outcome name is (p, b), p bounds every quote
for that name and (p, b) is the first quote attaining p in snapshot order:
an equal price never replaces the existing record, so ties at the maximum go
to the earliest bookmaker. -/
theorem C6_tie_first_seen (mt : Match) (name : String) (p : ℚ) (b : String)
    (h : lookupBO mt.get_best_odds name = some (p, b)) :
    (∀ q c, (name, q, c) ∈ quotes mt → q ≤ p) ∧
      (quotes mt).find? (fun e => decide (e.1 = name ∧ e.2.1 = p)) = some (name, p, b) := by
  have h0 : lookupBO [] name = none := rfl
  have hlk : bestOf name none (quotes mt) = some (p, b) := by
    rw [← h0, ← lookupBO_runBest, ← get_best_odds_eq_runBest]
    exact h
  rcases bestOf_first name (quotes mt) none p b hlk with heq | ⟨-, hfind⟩
  · exact absurd heq (by simp)
  · exact ⟨(bestOf_max name (quotes mt) none p b hlk).1, hfind⟩

/-- C6 witness: with BookA and BookB both quoting 2 for Home, the record is
the earlier BookA quote, the first quote attaining the maximum. -/
theorem C6_tie_first_seen_witness :
    (quotes mtTie).find? (fun e => decide (e.1 = "Home" ∧ e.2.1 = 2)) =
      some ("Home", 2, "BookA") :=
  (C6_tie_first_seen mtTie "Home" 2 "BookA"
    (by norm_num [Match.get_best_odds, mtTie, updateBest, lookupBO])).2

/-- C2: on every nonempty best-odds mapping evaluate returns a result whose
arbitrage flag is true exactly when the unrounded implied-probability sum is
strictly less than 1. -/
theorem C2_arbitrage_iff (ts : ℚ) (bo : BestOdds) (hne : bo ≠ []) :
    ∃ r, evaluate ts bo = some r ∧ (r.is_arbitrage = true ↔ totalProb bo < 1) := by
  obtain ⟨r, h1, -, h3⟩ := evaluate_some_spec ts bo hne
  exact ⟨r, h1, h3⟩

/-- C2 witness: a mapping whose implied sum is exactly 1 (prices 2 and 2) and
one whose sum is 0.999999, with the boundary sums evaluated concretely. -/
theorem C2_arbitrage_iff_witness :
    (∃ r, evaluate 100 [("Home", 2, "B1"), ("Away", 2, "B2")] = some r ∧
      (r.is_arbitrage = true ↔ totalProb [("Home", 2, "B1"), ("Away", 2, "B2")] < 1)) ∧
    ¬(totalProb [("Home", 2, "B1"), ("Away", 2, "B2")] < 1) ∧
    (∃ r, evaluate 100 [("All", 1000000 / 999999, "B")] = some r ∧
      (r.is_arbitrage = true ↔ totalProb [("All", 1000000 / 999999, "B")] < 1)) ∧
    totalProb [("All", 1000000 / 999999, "B")] = 999999 / 1000000 :=
  ⟨C2_arbitrage_iff 100 _ (by simp), by norm_num [totalProb, impliedProbs],
   C2_arbitrage_iff 100 _ (by simp), by norm_num [totalProb, impliedProbs]⟩

/-- C10: the reported probability sum and the arbitrage flag do not depend on
the total stake. -/
theorem C10_stake_independent (ts₁ ts₂ : ℚ) (bo : BestOdds) (hne : bo ≠ []) :
    ∃ r₁ r₂, evaluate ts₁ bo = some r₁ ∧ evaluate ts₂ bo = some r₂ ∧
      r₁.total_prob = r₂.total_prob ∧ r₁.is_arbitrage = r₂.is_arbitrage := by
  obtain ⟨r₁, h1, ht1, hi1⟩ := evaluate_some_spec ts₁ bo hne
  obtain ⟨r₂, h2, ht2, hi2⟩ := evaluate_some_spec ts₂ bo hne
  refine ⟨r₁, r₂, h1, h2, ht1.trans ht2.symm, ?_⟩
  by_cases h : totalProb bo < 1
  · rw [hi1.mpr h, hi2.mpr h]
  · have e1 : r₁.is_arbitrage = false := by
      cases hb : r₁.is_arbitrage
      · rfl
      · exact absurd (hi1.mp hb) h
    have e2 : r₂.is_arbitrage = false := by
      cases hb : r₂.is_arbitrage
      · rfl
      · exact absurd (hi2.mp hb) h
    rw [e1, e2]

/-- C10 witness: stakes 100 and 250 on the same mapping agree on the
probability sum and the flag. -/
theorem C10_stake_independent_witness :
    ∃ r₁ r₂, evaluate 100 boSingle = some r₁ ∧ evaluate 250 boSingle = some r₂ ∧
      r₁.total_prob = r₂.total_prob ∧ r₁.is_arbitrage = r₂.is_arbitrage :=
  C10_stake_independent 100 250 boSingle (by simp [boSingle])

/-- C7: evaluate yields no result exactly on the empty mapping, and a
snapshot whose bookmakers all lack markets (in particular one with no
bookmakers) evaluates to no result rather than an error or a zero result. -/
theorem C7_none_iff_empty (ts : ℚ) (bo : BestOdds) (mt : Match)
    (hall : ∀ bk ∈ mt.bookmakers, bk.markets = []) :
    (evaluate ts bo = none ↔ bo = []) ∧ evaluate ts mt.get_best_odds = none := by
  refine ⟨evaluate_eq_none_iff ts bo, ?_⟩
  have hq : quotes mt = [] := by
    rw [quotes]
    rw [List.flatten_eq_nil_iff]
    intro l hl
    obtain ⟨bk, hbk, rfl⟩ := List.mem_map.mp hl
    rw [bkQuotes, hall bk hbk]
  have hempty : mt.get_best_odds = [] := by
    rw [get_best_odds_eq_runBest, hq]
    rfl
  rw [hempty]
  exact (evaluate_eq_none_iff ts []).mpr rfl

/-- C7 witness: the empty-markets snapshot evaluates to none, and on the
nonempty mapping boSingle the none test is an equivalence. -/
theorem C7_none_iff_empty_witness :
    (evaluate 100 boSingle = none ↔ boSingle = []) ∧
      evaluate 100 mtNoMarkets.get_best_odds = none :=
  C7_none_iff_empty 100 boSingle mtNoMarkets (by simp [mtNoMarkets])

/-- C3: under an arbitrage verdict with positive prices, the unrounded stake
list is exactly implied probability over aggregate implied probability times
the total stake, outcome by outcome, and its sum is exactly the total
stake. -/
theorem C3_stake_allocation (ts : ℚ) (bo : BestOdds) (r : ArbResult)
    (h : evaluate ts bo = some r) (harb : r.is_arbitrage = true)
    (hpos : ∀ e ∈ bo, 0 < e.2.1) :
    strokes ts bo = ((impliedProbs bo).map fun q => q / totalProb bo * ts) ∧
      (strokes ts bo).sum = ts := by
  obtain ⟨hne, -, -, -, -⟩ := evaluate_arb_spec ts bo r h harb
  exact ⟨strokes_eq_map ts bo,
    strokes_sum ts bo (ne_of_gt (totalProb_pos bo hne hpos))⟩

/-- C3 witness: on boSingle with stake 100 the stake list follows the formula
and sums to 100. -/
theorem C3_stake_allocation_witness :
    strokes 100 boSingle = ((impliedProbs boSingle).map fun q => q / totalProb boSingle * 100) ∧
      (strokes 100 boSingle).sum = 100 :=
  C3_stake_allocation 100 boSingle rSingle evaluate_boSingle rfl (by norm_num [boSingle])

/-- C4: under an arbitrage verdict with positive prices the reported profit
is the minimum over outcomes of unrounded stake times price, minus the total
stake, rounded to 2 decimals; with the unrounded stakes every return equals
ts / totalProb, so the profit also equals that closed form. -/
theorem C4_profit_formula (ts : ℚ) (bo : BestOdds) (r : ArbResult)
    (h : evaluate ts bo = some r) (harb : r.is_arbitrage = true)
    (hpos : ∀ e ∈ bo, 0 < e.2.1) :
    r.guaranteed_profit = roundTo 2 (minReturn ts bo - ts) ∧
      returnsOf ts bo = (bo.map fun e => 1 / e.2.1 / totalProb bo * ts * e.2.1) ∧
      r.guaranteed_profit = roundTo 2 (ts / totalProb bo - ts) := by
  obtain ⟨hne, -, -, hgp, -⟩ := evaluate_arb_spec ts bo r h harb
  have h0 : ∀ e ∈ bo, e.2.1 ≠ 0 := fun e he => ne_of_gt (hpos e he)
  refine ⟨hgp, returnsOf_eq_map ts bo, ?_⟩
  rw [hgp, minReturn_eq ts bo hne h0]

/-- C4 witness: the profit on boSingle is computed from the unrounded stake
returns. -/
theorem C4_profit_formula_witness :
    rSingle.guaranteed_profit = roundTo 2 (minReturn 100 boSingle - 100) ∧
      returnsOf 100 boSingle =
        (boSingle.map fun e => 1 / e.2.1 / totalProb boSingle * 100 * e.2.1) ∧
      rSingle.guaranteed_profit = roundTo 2 (100 / totalProb boSingle - 100) :=
  C4_profit_formula 100 boSingle rSingle evaluate_boSingle rfl (by norm_num [boSingle])

/-- C5: with a positive total stake and positive prices, an arbitrage verdict
always reports a nonnegative guaranteed profit. -/
theorem C5_profit_nonneg (ts : ℚ) (bo : BestOdds) (r : ArbResult)
    (hts : 0 < ts) (hpos : ∀ e ∈ bo, 0 < e.2.1)
    (h : evaluate ts bo = some r) (harb : r.is_arbitrage = true) :
    0 ≤ r.guaranteed_profit := by
  obtain ⟨hne, hlt, -, hgp, -⟩ := evaluate_arb_spec ts bo r h harb
  have hT : 0 < totalProb bo := totalProb_pos bo hne hpos
  have h0 : ∀ e ∈ bo, e.2.1 ≠ 0 := fun e he => ne_of_gt (hpos e he)
  rw [hgp, minReturn_eq ts bo hne h0]
  apply roundTo_nonneg
  have hts' : ts ≤ ts / totalProb bo := by
    rw [le_div_iff₀ hT]
    calc ts * totalProb bo ≤ ts * 1 :=
          mul_le_mul_of_nonneg_left (le_of_lt hlt) (le_of_lt hts)
      _ = ts := mul_one ts
  linarith

/-- C5 witness: the arbitrage result on boSingle reports profit at least 0. -/
theorem C5_profit_nonneg_witness : 0 ≤ rSingle.guaranteed_profit :=
  C5_profit_nonneg 100 boSingle rSingle (by norm_num) (by norm_num [boSingle])
    evaluate_boSingle rfl

/-- C8 counterexample: the mapping boNeg quotes the nonpositive price -2, yet
the evaluator performs no validation and silently computes a full result (it
does not reject the input with an error). -/
theorem C8_counterexample :
    (-2 : ℚ) ≤ 0 ∧ evaluateExc 100 boNeg = Except.ok (some rNeg) := by
  refine ⟨by norm_num, ?_⟩
  have ht : totalProb boNeg = -(1 / 2) := by
    norm_num [totalProb, impliedProbs, boNeg]
  have hst : strokes 100 boNeg = [100] := by
    rw [strokes]
    simp only [ht]
    norm_num [boNeg]
  have hrt : returnsOf 100 boNeg = [-200] := by
    rw [returnsOf, hst]
    norm_num [boNeg]
  have hmr : minReturn 100 boNeg = -200 := by
    unfold minReturn
    rw [hrt]
    rfl
  rw [evaluateExc, if_neg (by simp [boNeg]), if_neg (by norm_num [boNeg]),
      if_neg (by rw [ht]; norm_num)]
  rw [evaluate, if_neg (by simp [boNeg]), if_pos (by rw [ht]; norm_num)]
  rw [ht, hst, hmr]
  rw [roundTo_exact 4 (-(1 / 2)) (-5000) (by norm_num),
      roundTo_exact 2 (-200 - 100) (-30000) (by norm_num)]
  norm_num [boNeg, rNeg, roundTo_exact 2 100 10000 (by norm_num)]

/-- C8 amended: a price of exactly 0 in a best-odds mapping makes the
evaluator raise a ZeroDivisionError surfaced to the caller; prices below 0
are not validated and are silently processed. -/
theorem C8_zero_price_error (ts : ℚ) (bo : BestOdds) (e : String × ℚ × String)
    (he : e ∈ bo) (h0 : e.2.1 = 0) :
    evaluateExc ts bo = Except.error "ZeroDivisionError" := by
  have hne : bo ≠ [] := List.ne_nil_of_mem he
  rw [evaluateExc, if_neg hne,
    if_pos (List.any_eq_true.mpr ⟨e, he, by simp [h0]⟩)]

/-- C8 amended witness: a zero price raises the division error. -/
theorem C8_zero_price_error_witness :
    evaluateExc 100 [("Home", 0, "BookA")] = Except.error "ZeroDivisionError" :=
  C8_zero_price_error 100 [("Home", 0, "BookA")] ("Home", 0, "BookA") (by simp) rfl

/-- C9: a payload missing any of the four required keys makes snapshot
construction fail with a KeyError naming a missing key, and no snapshot is
produced. -/
theorem C9_missing_key (d : MatchData)
    (h : d.home_team = none ∨ d.away_team = none ∨ d.commence_time = none ∨
      d.bookmakers = none) :
    (∃ k, Match.init d = Except.error ("KeyError: " ++ k) ∧
        ((k = "home_team" ∧ d.home_team = none) ∨
         (k = "away_team" ∧ d.away_team = none) ∨
         (k = "commence_time" ∧ d.commence_time = none) ∨
         (k = "bookmakers" ∧ d.bookmakers = none))) ∧
      ∀ m : Match, Match.init d ≠ Except.ok m := by
  have herr : ∃ k, Match.init d = Except.error ("KeyError: " ++ k) ∧
      ((k = "home_team" ∧ d.home_team = none) ∨
       (k = "away_team" ∧ d.away_team = none) ∨
       (k = "commence_time" ∧ d.commence_time = none) ∨
       (k = "bookmakers" ∧ d.bookmakers = none)) := by
    cases hh : d.home_team with
    | none => exact ⟨"home_team", by simp [Match.init, hh], Or.inl ⟨rfl, rfl⟩⟩
    | some ht =>
      cases ha : d.away_team with
      | none => exact ⟨"away_team", by simp [Match.init, hh, ha], Or.inr (Or.inl ⟨rfl, rfl⟩)⟩
      | some aw =>
        cases hc : d.commence_time with
        | none =>
          exact ⟨"commence_time", by simp [Match.init, hh, ha, hc],
            Or.inr (Or.inr (Or.inl ⟨rfl, rfl⟩))⟩
        | some ct =>
          cases hb : d.bookmakers with
          | none =>
            exact ⟨"bookmakers", by simp [Match.init, hh, ha, hc, hb],
              Or.inr (Or.inr (Or.inr ⟨rfl, rfl⟩))⟩
          | some bks =>
            exfalso
            rcases h with h | h | h | h <;> simp_all
  obtain ⟨k, hk, hcase⟩ := herr
  refine ⟨⟨k, hk, hcase⟩, ?_⟩
  intro m hm
  rw [hk] at hm
  exact Except.noConfusion hm

/-- C9 witness: a payload without home_team is rejected with a KeyError and
yields no snapshot. -/
theorem C9_missing_key_witness :
    (∃ k, Match.init mdMissing = Except.error ("KeyError: " ++ k) ∧
        ((k = "home_team" ∧ mdMissing.home_team = none) ∨
         (k = "away_team" ∧ mdMissing.away_team = none) ∨
         (k = "commence_time" ∧ mdMissing.commence_time = none) ∨
         (k = "bookmakers" ∧ mdMissing.bookmakers = none))) ∧
      ∀ m : Match, Match.init mdMissing ≠ Except.ok m :=
  C9_missing_key mdMissing (Or.inl rfl)

end GPA
